import Mathlib

/-!
Verification of `png_to_mc_pixelart.py`: a shallow embedding of the script's
quantizer, command emitter, limit check, resize-dimension computation and
preview renderer, together with theorems settling the specification claims.

Machine arithmetic note: the script computes palette distances with numpy
`int16` differences squared and summed as `int32`.  All channel values are
8-bit (0..255), so differences lie in [-255, 255] and sums of three squares
are at most 195075; both fit their numpy types exactly, so plain integer
arithmetic (`ℤ`) is a faithful model.
-/

set_option autoImplicit false

/-- An RGB triple, channels as natural numbers (8-bit in the program). -/
abbrev Rgb := ℕ × ℕ × ℕ

/-- Squared Euclidean RGB distance: sum of squared per-channel differences,
as computed by `nearest_color` in the source (`diffs ** 2` summed). -/
def sqDist (p q : Rgb) : ℤ :=
  ((p.1 : ℤ) - (q.1 : ℤ)) ^ 2 + ((p.2.1 : ℤ) - (q.2.1 : ℤ)) ^ 2 +
    ((p.2.2 : ℤ) - (q.2.2 : ℤ)) ^ 2

/-- Minimum of a list of integers (`0` for the empty list, which the program
never passes: palettes have 16 entries). -/
def listMin : List ℤ → ℤ
  | [] => 0
  | [x] => x
  | x :: y :: ys => min x (listMin (y :: ys))

/-- Index of the first occurrence of the minimum of a list: the semantics of
`np.argmin`, which returns the indices corresponding to the first occurrence
of the minimum value. -/
def argminFirst : List ℤ → ℕ
  | [] => 0
  | [_] => 0
  | x :: y :: ys => if x ≤ listMin (y :: ys) then 0 else argminFirst (y :: ys) + 1

/-- Embedding of `nearest_color(rgb, palette_arr)`: squared distances to every
palette entry, then `np.argmin`. -/
def nearest_color (rgb : Rgb) (palette : List Rgb) : ℕ :=
  argminFirst (List.map (sqDist rgb) palette)

/-- The 16-entry concrete palette from the source, in definition order. -/
def CONCRETE_PALETTE : List (String × Rgb) :=
  [("white", (209, 213, 214)), ("orange", (240, 118, 19)),
   ("magenta", (189, 68, 179)), ("light_blue", (58, 175, 217)),
   ("yellow", (249, 198, 39)), ("lime", (112, 185, 25)),
   ("pink", (237, 141, 172)), ("gray", (62, 68, 71)),
   ("light_gray", (142, 142, 134)), ("cyan", (21, 137, 142)),
   ("purple", (121, 42, 172)), ("blue", (53, 57, 157)),
   ("brown", (100, 58, 36)), ("green", (73, 91, 36)),
   ("red", (161, 39, 34)), ("black", (20, 21, 25))]

/-- The 16-entry wool palette from the source, in definition order. -/
def WOOL_PALETTE : List (String × Rgb) :=
  [("white", (234, 236, 237)), ("orange", (241, 118, 20)),
   ("magenta", (238, 77, 201)), ("light_blue", (128, 199, 248)),
   ("yellow", (250, 198, 39)), ("lime", (112, 185, 25)),
   ("pink", (242, 141, 170)), ("gray", (57, 57, 57)),
   ("light_gray", (151, 151, 151)), ("cyan", (20, 137, 140)),
   ("purple", (107, 50, 168)), ("blue", (44, 46, 143)),
   ("brown", (96, 59, 31)), ("green", (73, 91, 36)),
   ("red", (176, 46, 38)), ("black", (12, 12, 12))]

/-- Palette names in definition order (`list(palette.keys())` in the source). -/
def paletteNames (p : List (String × Rgb)) : List String := p.map Prod.fst

/-- Palette RGB rows in definition order (`palette_colors` in the source). -/
def paletteColors (p : List (String × Rgb)) : List Rgb := p.map Prod.snd

theorem listMin_le (l : List ℤ) : ∀ j, j < l.length → listMin l ≤ l.getD j 0 := by
  induction l with
  | nil => intro j hj; simp at hj
  | cons x xs ih =>
      cases xs with
      | nil =>
          intro j hj
          cases j with
          | zero => simp [listMin]
          | succ k => simp at hj
      | cons y ys =>
          intro j hj
          cases j with
          | zero => simp [listMin]
          | succ k =>
              have hk : k < (y :: ys).length := by
                simpa using Nat.lt_of_succ_lt_succ hj
              have := ih k hk
              calc listMin (x :: y :: ys) ≤ listMin (y :: ys) := by
                    simp [listMin]
                _ ≤ (y :: ys).getD k 0 := this
                _ = (x :: y :: ys).getD (k + 1) 0 := (List.getD_cons_succ).symm

theorem argminFirst_lt_length (l : List ℤ) (h : l ≠ []) : argminFirst l < l.length := by
  induction l with
  | nil => exact absurd rfl h
  | cons x xs ih =>
      cases xs with
      | nil => simp [argminFirst]
      | cons y ys =>
          by_cases hx : x ≤ listMin (y :: ys)
          · simp [argminFirst, hx]
          · have := ih (by simp)
            simp only [List.length_cons] at this
            simp only [argminFirst, hx, if_false, List.length_cons]
            omega

theorem getD_argminFirst (l : List ℤ) (h : l ≠ []) :
    l.getD (argminFirst l) 0 = listMin l := by
  induction l with
  | nil => exact absurd rfl h
  | cons x xs ih =>
      cases xs with
      | nil => simp [argminFirst, listMin]
      | cons y ys =>
          by_cases hx : x ≤ listMin (y :: ys)
          · simp [argminFirst, hx, listMin, min_eq_left hx]
          · have htail := ih (by simp)
            have hlt : listMin (y :: ys) ≤ x := le_of_not_le hx
            have ha : argminFirst (x :: y :: ys) = argminFirst (y :: ys) + 1 := by
              simp [argminFirst, hx]
            rw [ha, List.getD_cons_succ, htail]
            simp [listMin, min_eq_right hlt]

theorem argminFirst_first (l : List ℤ) :
    ∀ j, j < argminFirst l → listMin l < l.getD j 0 := by
  induction l with
  | nil => intro j hj; simp [argminFirst] at hj
  | cons x xs ih =>
      cases xs with
      | nil => intro j hj; simp [argminFirst] at hj
      | cons y ys =>
          intro j hj
          by_cases hx : x ≤ listMin (y :: ys)
          · simp [argminFirst, hx] at hj
          · simp only [argminFirst, hx, if_false] at hj
            have hmin : listMin (x :: y :: ys) = listMin (y :: ys) := by
              exact min_eq_right (le_of_not_le hx)
            cases j with
            | zero =>
                rw [hmin, List.getD_cons_zero]
                exact lt_of_not_le hx
            | succ k =>
                have hk : k < argminFirst (y :: ys) := Nat.lt_of_succ_lt_succ hj
                rw [hmin, List.getD_cons_succ]
                exact ih k hk

theorem sqDist_nonneg (p q : Rgb) : 0 ≤ sqDist p q := by
  unfold sqDist
  positivity

theorem sqDist_self (p : Rgb) : sqDist p p = 0 := by
  unfold sqDist
  ring

theorem sqDist_eq_zero (p q : Rgb) (h : sqDist p q = 0) : q = p := by
  unfold sqDist at h
  have h1 : ((p.1 : ℤ) - (q.1 : ℤ)) ^ 2 = 0 := by nlinarith [sq_nonneg ((p.1 : ℤ) - q.1), sq_nonneg ((p.2.1 : ℤ) - q.2.1), sq_nonneg ((p.2.2 : ℤ) - q.2.2)]
  have h2 : ((p.2.1 : ℤ) - (q.2.1 : ℤ)) ^ 2 = 0 := by nlinarith [sq_nonneg ((p.1 : ℤ) - q.1), sq_nonneg ((p.2.1 : ℤ) - q.2.1), sq_nonneg ((p.2.2 : ℤ) - q.2.2)]
  have h3 : ((p.2.2 : ℤ) - (q.2.2 : ℤ)) ^ 2 = 0 := by nlinarith [sq_nonneg ((p.1 : ℤ) - q.1), sq_nonneg ((p.2.1 : ℤ) - q.2.1), sq_nonneg ((p.2.2 : ℤ) - q.2.2)]
  have e1 : (q.1 : ℤ) = (p.1 : ℤ) := by nlinarith [h1]
  have e2 : (q.2.1 : ℤ) = (p.2.1 : ℤ) := by nlinarith [h2]
  have e3 : (q.2.2 : ℤ) = (p.2.2 : ℤ) := by nlinarith [h3]
  have n1 : q.1 = p.1 := by exact_mod_cast e1
  have n2 : q.2.1 = p.2.1 := by exact_mod_cast e2
  have n3 : q.2.2 = p.2.2 := by exact_mod_cast e3
  obtain ⟨qa, qb, qc⟩ := q
  obtain ⟨pa, pb, pc⟩ := p
  simp_all

theorem getD_map_sqDist (rgb : Rgb) (palette : List Rgb) (j : ℕ)
    (hj : j < palette.length) :
    (List.map (sqDist rgb) palette).getD j 0 = sqDist rgb (palette.getD j (0, 0, 0)) := by
  have hj' : j < (List.map (sqDist rgb) palette).length := by
    simpa using hj
  rw [List.getD_eq_getElem?_getD, List.getElem?_eq_getElem hj',
    List.getD_eq_getElem?_getD, List.getElem?_eq_getElem hj]
  simp

/-- C1: for every pixel and non-empty palette, `nearest_color` returns an
in-range index whose palette entry has minimal squared Euclidean RGB distance
to the pixel; every strictly earlier index has strictly larger distance (so
ties go to the lowest index in palette definition order); and when the pixel
equals some palette entry, the returned entry equals the pixel at distance 0,
and for a duplicate-free palette it is exactly that entry's index. -/
theorem nearest_color_minimal_index (rgb : Rgb) (palette : List Rgb)
    (hne : palette ≠ []) (i : ℕ) (hi : nearest_color rgb palette = i) :
    i < palette.length ∧
    (∀ j, j < palette.length →
      sqDist rgb (palette.getD i (0, 0, 0)) ≤ sqDist rgb (palette.getD j (0, 0, 0))) ∧
    (∀ j, j < i →
      sqDist rgb (palette.getD i (0, 0, 0)) < sqDist rgb (palette.getD j (0, 0, 0))) ∧
    (∀ k, k < palette.length → palette.getD k (0, 0, 0) = rgb →
      sqDist rgb (palette.getD i (0, 0, 0)) = 0 ∧ palette.getD i (0, 0, 0) = rgb ∧
      (palette.Nodup → i = k)) := by
  subst hi
  set d := List.map (sqDist rgb) palette with hd
  have hdne : d ≠ [] := by
    rw [hd]
    simpa using hne
  have hdlen : d.length = palette.length := by simp [hd]
  have hiLt : nearest_color rgb palette < palette.length := by
    have := argminFirst_lt_length d hdne
    rw [hdlen] at this
    exact this
  have hval : d.getD (nearest_color rgb palette) 0 = listMin d :=
    getD_argminFirst d hdne
  have hmin : ∀ j, j < palette.length →
      sqDist rgb (palette.getD (nearest_color rgb palette) (0, 0, 0)) ≤
        sqDist rgb (palette.getD j (0, 0, 0)) := by
    intro j hj
    have h1 := listMin_le d j (by rw [hdlen]; exact hj)
    rw [← hval] at h1
    rw [getD_map_sqDist rgb palette _ hiLt, getD_map_sqDist rgb palette j hj] at h1
    exact h1
  refine ⟨hiLt, hmin, ?_, ?_⟩
  · intro j hj
    have hjLt : j < palette.length := lt_trans hj hiLt
    have h1 := argminFirst_first d j hj
    rw [← hval] at h1
    rw [getD_map_sqDist rgb palette _ hiLt, getD_map_sqDist rgb palette j hjLt] at h1
    exact h1
  · intro k hk hkeq
    have hk0 : sqDist rgb (palette.getD k (0, 0, 0)) = 0 := by
      rw [hkeq]
      exact sqDist_self rgb
    have hle := hmin k hk
    rw [hk0] at hle
    have hge := sqDist_nonneg rgb (palette.getD (nearest_color rgb palette) (0, 0, 0))
    have hzero : sqDist rgb (palette.getD (nearest_color rgb palette) (0, 0, 0)) = 0 :=
      le_antisymm hle hge
    have heq : palette.getD (nearest_color rgb palette) (0, 0, 0) = rgb :=
      sqDist_eq_zero rgb _ hzero
    refine ⟨hzero, heq, ?_⟩
    intro hnd
    have hgi : palette.getD (nearest_color rgb palette) (0, 0, 0) =
        palette.get ⟨nearest_color rgb palette, hiLt⟩ := by
      rw [List.getD_eq_getElem?_getD, List.getElem?_eq_getElem hiLt]
      rfl
    have hgk : palette.getD k (0, 0, 0) = palette.get ⟨k, hk⟩ := by
      rw [List.getD_eq_getElem?_getD, List.getElem?_eq_getElem hk]
      rfl
    have hgeq : palette.get ⟨nearest_color rgb palette, hiLt⟩ = palette.get ⟨k, hk⟩ := by
      rw [← hgi, ← hgk, heq, hkeq]
    exact congrArg Fin.val ((List.Nodup.get_inj_iff hnd).mp hgeq)

/-- C1 witness: the pixel (20,21,25) equals the concrete palette's "black"
entry at index 15, and the theorem's conclusion holds there concretely. -/
theorem nearest_color_minimal_index_wit :
    paletteColors CONCRETE_PALETTE ≠ [] ∧
    nearest_color (20, 21, 25) (paletteColors CONCRETE_PALETTE) = 15 ∧
    (15 < (paletteColors CONCRETE_PALETTE).length ∧
      (∀ j, j < (paletteColors CONCRETE_PALETTE).length →
        sqDist (20, 21, 25) ((paletteColors CONCRETE_PALETTE).getD 15 (0, 0, 0)) ≤
          sqDist (20, 21, 25) ((paletteColors CONCRETE_PALETTE).getD j (0, 0, 0))) ∧
      (∀ j, j < 15 →
        sqDist (20, 21, 25) ((paletteColors CONCRETE_PALETTE).getD 15 (0, 0, 0)) <
          sqDist (20, 21, 25) ((paletteColors CONCRETE_PALETTE).getD j (0, 0, 0))) ∧
      (∀ k, k < (paletteColors CONCRETE_PALETTE).length →
        (paletteColors CONCRETE_PALETTE).getD k (0, 0, 0) = (20, 21, 25) →
        sqDist (20, 21, 25) ((paletteColors CONCRETE_PALETTE).getD 15 (0, 0, 0)) = 0 ∧
        (paletteColors CONCRETE_PALETTE).getD 15 (0, 0, 0) = (20, 21, 25) ∧
        ((paletteColors CONCRETE_PALETTE).Nodup → 15 = k))) :=
  ⟨by decide, by decide,
    nearest_color_minimal_index (20, 21, 25) (paletteColors CONCRETE_PALETTE)
      (by decide) 15 (by decide)⟩

/-- Embedding of `offset_token(offset)`: `0 -> "~"`, otherwise `"~" + str(offset)`. -/
def offset_token (offset : ℤ) : String :=
  if offset = 0 then "~" else "~" ++ toString offset

/-- Embedding of `build_setblock_cmd(xoff, y, zoff, block_fullname)`. -/
def build_setblock_cmd (xoff y zoff : ℤ) (block_fullname : String) : String :=
  "setblock " ++ offset_token xoff ++ " " ++ toString y ++ " " ++
    offset_token zoff ++ " " ++ block_fullname ++ " replace"

theorem toString_int_eq_repr (n : ℤ) : toString n = Int.repr n := rfl

/-- C7: the coordinate token is the bare relative marker for offset 0, and the
marker immediately followed by the signed decimal integer otherwise: the
positive case appends the digits of the value, the negative case appends a
minus sign and the digits of the absolute value, with 0 -> "~", 5 -> "~5"
and -3 -> "~-3". -/
theorem offset_token_format :
    (∀ n : ℤ, offset_token n =
      if n = 0 then "~"
      else if 0 < n then "~" ++ Nat.repr n.toNat
      else "~-" ++ Nat.repr n.natAbs) ∧
    offset_token 0 = "~" ∧ offset_token 5 = "~5" ∧ offset_token (-3) = "~-3" := by
  refine ⟨?_, by decide, by decide, by decide⟩
  intro n
  by_cases h0 : n = 0
  · simp [offset_token, h0]
  · rw [offset_token, if_neg h0, toString_int_eq_repr]
    cases n with
    | ofNat m =>
        have hm0 : m ≠ 0 := by
          rintro rfl
          exact h0 rfl
        have hm : 0 < (Int.ofNat m) :=
          Int.ofNat_pos.mpr (Nat.pos_of_ne_zero hm0)
        rw [if_neg h0, if_pos hm]
        rfl
    | negSucc m =>
        have hm : ¬ (0 < Int.negSucc m) :=
          not_lt.mpr (le_of_lt (Int.negSucc_lt_zero m))
        rw [if_neg h0, if_neg hm]
        show "~" ++ ("-" ++ Nat.repr (m + 1)) = "~-" ++ Nat.repr (m + 1)
        rw [← String.append_assoc]
        rfl

/-- Width of the quantized grid, as numpy reports it (`pixels.shape[1]`):
the length of the first row; numpy arrays are rectangular by construction. -/
def gridW (g : List (List ℕ)) : ℕ := (g.getD 0 []).length

/-- Depth-axis row offset chosen in `main`: `row_idx` when `--flipy` is set,
otherwise `H - 1 - row_idx`. -/
def zRowOffset (H : ℕ) (flipy : Bool) (r : ℕ) : ℤ :=
  if flipy then (r : ℤ) else (H : ℤ) - 1 - (r : ℤ)

/-- The command built for grid cell `(r, c)` in `main`'s nested loop:
x offset `startx + col`, constant height `starty`, z offset
`startz + z_offset_row`, block `minecraft:<color>_<blocktype>`. -/
def cellCommand (mapped : List (List ℕ)) (names : List String) (blocktype : String)
    (sx sy sz : ℤ) (flipy : Bool) (r c : ℕ) : String :=
  build_setblock_cmd (sx + (c : ℤ)) sy (sz + zRowOffset mapped.length flipy r)
    ("minecraft:" ++ names.getD ((mapped.getD r []).getD c 0) "" ++ "_" ++ blocktype)

/-- The full command list of `main`: rows top to bottom, columns left to
right (row-major traversal of the quantized grid). -/
def mainCommands (mapped : List (List ℕ)) (names : List String) (blocktype : String)
    (sx sy sz : ℤ) (flipy : Bool) : List String :=
  (List.range mapped.length).flatMap (fun r =>
    (List.range (gridW mapped)).map (cellCommand mapped names blocktype sx sy sz flipy r))

theorem length_flatMap_range_map {α : Type} (g : ℕ → ℕ → α) (H W : ℕ) :
    ((List.range H).flatMap (fun r => (List.range W).map (g r))).length = H * W := by
  induction H with
  | zero => simp
  | succ n ih =>
      rw [List.range_succ, List.flatMap_append]
      simp only [List.length_append, ih]
      simp [Nat.succ_mul]

theorem getElem?_flatMap_range_map {α : Type} (g : ℕ → ℕ → α) (H W r c : ℕ)
    (hr : r < H) (hc : c < W) :
    ((List.range H).flatMap (fun r => (List.range W).map (g r)))[r * W + c]? =
      some (g r c) := by
  induction H with
  | zero => omega
  | succ n ih =>
      rw [List.range_succ, List.flatMap_append]
      by_cases hrn : r < n
      · have hlt : r * W + c < ((List.range n).flatMap
            (fun r => (List.range W).map (g r))).length := by
          rw [length_flatMap_range_map]
          calc r * W + c < r * W + W := by omega
            _ = (r + 1) * W := by ring
            _ ≤ n * W := Nat.mul_le_mul_right W hrn
        rw [List.getElem?_append_left hlt]
        exact ih hrn
      · have hreq : r = n := by omega
        subst hreq
        rw [List.getElem?_append_right]
        · rw [length_flatMap_range_map]
          have hidx : r * W + c - r * W = c := by omega
          rw [hidx]
          simp [List.getElem?_range hc]
        · rw [length_flatMap_range_map]
          omega

/-- C3: the emitted command for cell `(row, col)` is exactly
`setblock <horizontal-token> <height> <depth-token> <namespace>:<color>_<family> replace`,
with horizontal offset `start_x + col`, depth offset
`start_z + (row if flip_vertical else H - 1 - row)`, constant height
`start_y`, and block identifier namespace + color name + underscore +
block family. -/
theorem setblock_command_shape (mapped : List (List ℕ)) (names : List String)
    (blocktype : String) (sx sy sz : ℤ) (flipy : Bool) (r c : ℕ)
    (hr : r < mapped.length) (hc : c < gridW mapped) :
    (mainCommands mapped names blocktype sx sy sz flipy)[r * gridW mapped + c]? =
      some ("setblock " ++ offset_token (sx + (c : ℤ)) ++ " " ++ toString sy ++ " " ++
        offset_token (sz + (if flipy then (r : ℤ) else (mapped.length : ℤ) - 1 - (r : ℤ))) ++
        " " ++ ("minecraft:" ++ names.getD ((mapped.getD r []).getD c 0) "" ++ "_" ++
          blocktype) ++ " replace") := by
  rw [mainCommands, getElem?_flatMap_range_map _ _ _ _ _ hr hc]
  rfl

/-- C3 witness: a 1x1 grid whose single cell is palette index 0 ("white"),
start offsets (0, 64, 0), no flip: the single command is
`setblock ~ 64 ~ minecraft:white_concrete replace`. -/
theorem setblock_command_shape_wit :
    (0 < ([[0]] : List (List ℕ)).length ∧ 0 < gridW [[0]]) ∧
    (mainCommands [[0]] (paletteNames CONCRETE_PALETTE) "concrete" 0 64 0 false)[0 * gridW [[0]] + 0]? =
      some ("setblock " ++ offset_token (0 + ((0 : ℕ) : ℤ)) ++ " " ++ toString (64 : ℤ) ++ " " ++
        offset_token (0 + (if false then ((0 : ℕ) : ℤ) else (([[0]] : List (List ℕ)).length : ℤ) - 1 - ((0 : ℕ) : ℤ))) ++
        " " ++ ("minecraft:" ++ (paletteNames CONCRETE_PALETTE).getD ((([[0]] : List (List ℕ)).getD 0 []).getD 0 0) "" ++ "_" ++
          "concrete") ++ " replace") :=
  ⟨⟨by decide, by decide⟩,
    setblock_command_shape [[0]] (paletteNames CONCRETE_PALETTE) "concrete" 0 64 0 false 0 0
      (by decide) (by decide)⟩

/-- The `SystemExit` message raised when the command count exceeds the limit. -/
def limitMsg (maxc : ℤ) : String :=
  "Aborting: command count exceeded max-commands (" ++ toString maxc ++ ")."

/-- One iteration of `main`'s emission loop: append the cell's command, then
raise `SystemExit` as soon as `len(commands) > args.max_commands`. -/
def emitStep (maxc : ℤ) (acc : Except String (List String)) (cmd : String) :
    Except String (List String) :=
  match acc with
  | .error e => .error e
  | .ok cmds =>
      if maxc < ((cmds ++ [cmd]).length : ℤ) then .error (limitMsg maxc)
      else .ok (cmds ++ [cmd])

/-- The whole emission loop with the running limit check, over the cell
commands in row-major order. -/
def emitLimited (cmds : List String) (maxc : ℤ) : Except String (List String) :=
  cmds.foldl (emitStep maxc) (.ok [])

/-- Embedding of `make_mcfunction`'s write loop: the file content is built by
writing each command followed by a newline, in list order. -/
def make_mcfunction (commands : List String) : String :=
  commands.foldl (fun acc cmd => acc ++ (cmd ++ "\n")) ""

/-- File content at the output path after `make_mcfunction`: the file is
opened with mode "w", which truncates, so the result ignores the previous
content entirely. -/
def fileAfterWrite (_oldContent : String) (commands : List String) : String :=
  make_mcfunction commands

/-- Concatenation of the commands, each followed by one newline: the
spec-side description of the output file format. -/
def concatLines (commands : List String) : String :=
  (commands.map (fun c => c ++ "\n")).foldr (fun a b => a ++ b) ""

/-- The tail of `main` as a file-system transformer: run the emission loop;
on abort the output file is untouched (it is only opened after the loop); on
success the output file holds exactly the written content. The result is
(abort message if any, final file content if the file exists). -/
def mainEmitState (cmds : List String) (maxc : ℤ) (file : Option String) :
    (Option String) × (Option String) :=
  match emitLimited cmds maxc with
  | .error e => (some e, file)
  | .ok cs => (none, some (make_mcfunction cs))

theorem foldl_emitStep_error (maxc : ℤ) (e : String) (l : List String) :
    l.foldl (emitStep maxc) (.error e) = .error e := by
  induction l with
  | nil => rfl
  | cons c cs ih => simpa [emitStep] using ih

theorem foldl_emitStep_ok (maxc : ℤ) :
    ∀ (rest acc : List String),
      ((acc.length + rest.length : ℕ) : ℤ) ≤ maxc →
      rest.foldl (emitStep maxc) (.ok acc) = .ok (acc ++ rest) := by
  intro rest
  induction rest with
  | nil =>
      intro acc h
      simp
  | cons c cs ih =>
      intro acc h
      simp only [List.length_cons] at h
      push_cast at h
      have hlc : ((acc ++ [c]).length : ℤ) = (acc.length : ℤ) + 1 := by
        simp
      have hlen : ¬ maxc < ((acc ++ [c]).length : ℤ) := by
        rw [hlc]
        omega
      rw [List.foldl_cons]
      have hstep : emitStep maxc (.ok acc) c = .ok (acc ++ [c]) := by
        show (if maxc < (((acc ++ [c]).length : ℕ) : ℤ) then Except.error (limitMsg maxc)
          else Except.ok (acc ++ [c])) = Except.ok (acc ++ [c])
        rw [if_neg hlen]
      rw [hstep, ih (acc ++ [c]) (by push_cast; rw [hlc]; omega)]
      simp

theorem foldl_emitStep_abort (maxc : ℤ) :
    ∀ (rest acc : List String), rest ≠ [] →
      maxc < ((acc.length + rest.length : ℕ) : ℤ) →
      rest.foldl (emitStep maxc) (.ok acc) = .error (limitMsg maxc) := by
  intro rest
  induction rest with
  | nil =>
      intro acc hne h
      exact absurd rfl hne
  | cons c cs ih =>
      intro acc hne h
      simp only [List.length_cons] at h
      push_cast at h
      have hlc : ((acc ++ [c]).length : ℤ) = (acc.length : ℤ) + 1 := by
        simp
      rw [List.foldl_cons]
      by_cases hover : maxc < ((acc ++ [c]).length : ℤ)
      · have hstep : emitStep maxc (.ok acc) c = .error (limitMsg maxc) := by
          show (if maxc < (((acc ++ [c]).length : ℕ) : ℤ) then Except.error (limitMsg maxc)
            else Except.ok (acc ++ [c])) = Except.error (limitMsg maxc)
          rw [if_pos hover]
        rw [hstep]
        exact foldl_emitStep_error maxc _ cs
      · have hstep : emitStep maxc (.ok acc) c = .ok (acc ++ [c]) := by
          show (if maxc < (((acc ++ [c]).length : ℕ) : ℤ) then Except.error (limitMsg maxc)
            else Except.ok (acc ++ [c])) = Except.ok (acc ++ [c])
          rw [if_neg hover]
        rw [hstep]
        rw [hlc] at hover
        have hcs : cs ≠ [] := by
          rintro rfl
          simp only [List.length_nil] at h
          push_cast at h
          omega
        refine ih (acc ++ [c]) hcs ?_
        push_cast
        rw [hlc]
        omega

/-- C2: with a nonempty quantized grid (H, W >= 1, as the dimension check
upstream guarantees), if W*H exceeds max_commands the run aborts with the
command-limit `SystemExit` and the output file is left exactly as it was
(never created or overwritten, since the file is only opened after the
loop); and if W*H does not exceed max_commands, no abort occurs and the
output file holds all W*H written commands. -/
theorem command_limit_abort_or_write (mapped : List (List ℕ)) (names : List String)
    (blocktype : String) (sx sy sz : ℤ) (flipy : Bool) (maxc : ℤ)
    (hH : 0 < mapped.length) (hW : 0 < gridW mapped) :
    (maxc < ((mapped.length * gridW mapped : ℕ) : ℤ) →
      ∀ file : Option String,
        mainEmitState (mainCommands mapped names blocktype sx sy sz flipy) maxc file =
          (some (limitMsg maxc), file)) ∧
    (((mapped.length * gridW mapped : ℕ) : ℤ) ≤ maxc →
      ∀ file : Option String,
        mainEmitState (mainCommands mapped names blocktype sx sy sz flipy) maxc file =
          (none, some (make_mcfunction (mainCommands mapped names blocktype sx sy sz flipy))) ∧
        (mainCommands mapped names blocktype sx sy sz flipy).length =
          mapped.length * gridW mapped) := by
  have hlen : (mainCommands mapped names blocktype sx sy sz flipy).length =
      mapped.length * gridW mapped := by
    rw [mainCommands]
    exact length_flatMap_range_map _ _ _
  constructor
  · intro hover file
    have hne : mainCommands mapped names blocktype sx sy sz flipy ≠ [] := by
      intro hnil
      have h0 : mapped.length * gridW mapped = 0 := by
        rw [← hlen, hnil]
        rfl
      have hpos := Nat.mul_pos hH hW
      omega
    have habort : emitLimited (mainCommands mapped names blocktype sx sy sz flipy) maxc =
        .error (limitMsg maxc) := by
      rw [emitLimited]
      refine foldl_emitStep_abort maxc _ [] hne ?_
      simp only [List.length_nil, Nat.zero_add, hlen]
      exact hover
    rw [mainEmitState, habort]
  · intro hunder file
    have hok : emitLimited (mainCommands mapped names blocktype sx sy sz flipy) maxc =
        .ok (mainCommands mapped names blocktype sx sy sz flipy) := by
      rw [emitLimited]
      have := foldl_emitStep_ok maxc (mainCommands mapped names blocktype sx sy sz flipy) []
        (by simp only [List.length_nil, Nat.zero_add, hlen]; exact hunder)
      simpa using this
    rw [mainEmitState, hok]
    exact ⟨rfl, hlen⟩

/-- C2 witness: a 1x1 grid with limit 100000 stays under the limit and the
file ends up holding the single written command. -/
theorem command_limit_abort_or_write_wit :
    0 < ([[0]] : List (List ℕ)).length ∧ 0 < gridW [[0]] ∧
    ((100000 : ℤ) < ((([[0]] : List (List ℕ)).length * gridW [[0]] : ℕ) : ℤ) →
      ∀ file : Option String,
        mainEmitState (mainCommands [[0]] ["white"] "concrete" 0 64 0 false) 100000 file =
          (some (limitMsg 100000), file)) ∧
    (((([[0]] : List (List ℕ)).length * gridW [[0]] : ℕ) : ℤ) ≤ (100000 : ℤ) →
      ∀ file : Option String,
        mainEmitState (mainCommands [[0]] ["white"] "concrete" 0 64 0 false) 100000 file =
          (none, some (make_mcfunction (mainCommands [[0]] ["white"] "concrete" 0 64 0 false))) ∧
        (mainCommands [[0]] ["white"] "concrete" 0 64 0 false).length =
          ([[0]] : List (List ℕ)).length * gridW [[0]]) := by
  refine ⟨by decide, by decide, ?_, ?_⟩
  · exact (command_limit_abort_or_write [[0]] ["white"] "concrete" 0 64 0 false 100000
      (by decide) (by decide)).1
  · exact (command_limit_abort_or_write [[0]] ["white"] "concrete" 0 64 0 false 100000
      (by decide) (by decide)).2

theorem concatLines_cons (c : String) (cs : List String) :
    concatLines (c :: cs) = (c ++ "\n") ++ concatLines cs := rfl

theorem foldl_write_eq_concat (commands : List String) :
    ∀ acc : String,
      commands.foldl (fun a cmd => a ++ (cmd ++ "\n")) acc = acc ++ concatLines commands := by
  induction commands with
  | nil =>
      intro acc
      simp [concatLines, String.append_empty]
  | cons c cs ih =>
      intro acc
      rw [List.foldl_cons, ih (acc ++ (c ++ "\n")), concatLines_cons,
        String.append_assoc]

/-- C5: under the command limit, the emitted list holds exactly W*H command
strings, one per grid cell in row-major order (the command at flat index
`row*W + col` is the cell's command), the emission loop accepts all of them,
and the file content after the write is the commands concatenated verbatim
in that order, one per line, regardless of any previous file content
(mode "w" truncates). -/
theorem commands_count_and_write (mapped : List (List ℕ)) (names : List String)
    (blocktype : String) (sx sy sz : ℤ) (flipy : Bool) (maxc : ℤ)
    (hmax : ((mapped.length * gridW mapped : ℕ) : ℤ) ≤ maxc) :
    (mainCommands mapped names blocktype sx sy sz flipy).length =
      mapped.length * gridW mapped ∧
    emitLimited (mainCommands mapped names blocktype sx sy sz flipy) maxc =
      .ok (mainCommands mapped names blocktype sx sy sz flipy) ∧
    (∀ r c, r < mapped.length → c < gridW mapped →
      (mainCommands mapped names blocktype sx sy sz flipy)[r * gridW mapped + c]? =
        some (cellCommand mapped names blocktype sx sy sz flipy r c)) ∧
    (∀ old : String,
      fileAfterWrite old (mainCommands mapped names blocktype sx sy sz flipy) =
        concatLines (mainCommands mapped names blocktype sx sy sz flipy)) := by
  have hlen : (mainCommands mapped names blocktype sx sy sz flipy).length =
      mapped.length * gridW mapped := by
    rw [mainCommands]
    exact length_flatMap_range_map _ _ _
  refine ⟨hlen, ?_, ?_, ?_⟩
  · rw [emitLimited]
    have := foldl_emitStep_ok maxc (mainCommands mapped names blocktype sx sy sz flipy) []
      (by simp only [List.length_nil, Nat.zero_add, hlen]; exact hmax)
    simpa using this
  · intro r c hr hc
    rw [mainCommands, getElem?_flatMap_range_map _ _ _ _ _ hr hc]
  · intro old
    rw [fileAfterWrite, make_mcfunction,
      foldl_write_eq_concat (mainCommands mapped names blocktype sx sy sz flipy) "",
      String.empty_append]

/-- C5 witness: a 1x2 grid (one row, two cells) with limit 100000. -/
theorem commands_count_and_write_wit :
    ((([[15, 0]] : List (List ℕ)).length * gridW [[15, 0]] : ℕ) : ℤ) ≤ (100000 : ℤ) ∧
    ((mainCommands [[15, 0]] (paletteNames CONCRETE_PALETTE) "concrete" 0 64 0 false).length =
      ([[15, 0]] : List (List ℕ)).length * gridW [[15, 0]] ∧
    emitLimited (mainCommands [[15, 0]] (paletteNames CONCRETE_PALETTE) "concrete" 0 64 0 false) 100000 =
      .ok (mainCommands [[15, 0]] (paletteNames CONCRETE_PALETTE) "concrete" 0 64 0 false) ∧
    (∀ r c, r < ([[15, 0]] : List (List ℕ)).length → c < gridW [[15, 0]] →
      (mainCommands [[15, 0]] (paletteNames CONCRETE_PALETTE) "concrete" 0 64 0 false)[r * gridW [[15, 0]] + c]? =
        some (cellCommand [[15, 0]] (paletteNames CONCRETE_PALETTE) "concrete" 0 64 0 false r c)) ∧
    (∀ old : String,
      fileAfterWrite old (mainCommands [[15, 0]] (paletteNames CONCRETE_PALETTE) "concrete" 0 64 0 false) =
        concatLines (mainCommands [[15, 0]] (paletteNames CONCRETE_PALETTE) "concrete" 0 64 0 false))) :=
  ⟨by decide,
    commands_count_and_write [[15, 0]] (paletteNames CONCRETE_PALETTE) "concrete" 0 64 0 false
      100000 (by decide)⟩

/-- C10: toggling the flip flag changes only the depth token: the i-th
command with the flag and the i-th command without it are setblock commands
with the same horizontal token argument, the same height value and the same
block identifier, differing at most in the depth offset; the command count
is unchanged (and order is index-by-index). -/
theorem flip_changes_only_depth (mapped : List (List ℕ)) (names : List String)
    (blocktype : String) (sx sy sz : ℤ) (i : ℕ)
    (hi : i < mapped.length * gridW mapped) :
    (mainCommands mapped names blocktype sx sy sz true).length =
      (mainCommands mapped names blocktype sx sy sz false).length ∧
    ∃ x zf zn b,
      (mainCommands mapped names blocktype sx sy sz true)[i]? =
        some (build_setblock_cmd x sy zf b) ∧
      (mainCommands mapped names blocktype sx sy sz false)[i]? =
        some (build_setblock_cmd x sy zn b) := by
  have hW : 0 < gridW mapped := by
    rcases Nat.eq_zero_or_pos (gridW mapped) with h | h
    · rw [h, Nat.mul_zero] at hi
      omega
    · exact h
  have hr : i / gridW mapped < mapped.length := (Nat.div_lt_iff_lt_mul hW).mpr hi
  have hc : i % gridW mapped < gridW mapped := Nat.mod_lt i hW
  have hieq : i / gridW mapped * gridW mapped + i % gridW mapped = i := by
    have h1 := Nat.div_add_mod i (gridW mapped)
    calc i / gridW mapped * gridW mapped + i % gridW mapped
        = gridW mapped * (i / gridW mapped) + i % gridW mapped := by
          rw [Nat.mul_comm]
      _ = i := h1
  constructor
  · rw [mainCommands, mainCommands, length_flatMap_range_map, length_flatMap_range_map]
  · refine ⟨sx + ((i % gridW mapped : ℕ) : ℤ),
      sz + zRowOffset mapped.length true (i / gridW mapped),
      sz + zRowOffset mapped.length false (i / gridW mapped),
      "minecraft:" ++ names.getD ((mapped.getD (i / gridW mapped) []).getD (i % gridW mapped) 0) "" ++ "_" ++ blocktype,
      ?_, ?_⟩
    · conv_lhs => rw [← hieq]
      rw [mainCommands, getElem?_flatMap_range_map _ _ _ _ _ hr hc]
      rfl
    · conv_lhs => rw [← hieq]
      rw [mainCommands, getElem?_flatMap_range_map _ _ _ _ _ hr hc]
      rfl

/-- C10 witness: a 2x1 grid at flat index 1. -/
theorem flip_changes_only_depth_wit :
    1 < ([[3], [7]] : List (List ℕ)).length * gridW [[3], [7]] ∧
    ((mainCommands [[3], [7]] (paletteNames CONCRETE_PALETTE) "concrete" 2 64 5 true).length =
      (mainCommands [[3], [7]] (paletteNames CONCRETE_PALETTE) "concrete" 2 64 5 false).length ∧
    ∃ x zf zn b,
      (mainCommands [[3], [7]] (paletteNames CONCRETE_PALETTE) "concrete" 2 64 5 true)[1]? =
        some (build_setblock_cmd x 64 zf b) ∧
      (mainCommands [[3], [7]] (paletteNames CONCRETE_PALETTE) "concrete" 2 64 5 false)[1]? =
        some (build_setblock_cmd x 64 zn b)) :=
  ⟨by decide,
    flip_changes_only_depth [[3], [7]] (paletteNames CONCRETE_PALETTE) "concrete" 2 64 5 1
      (by decide)⟩

/-- Accumulator loop of a sequential scan that keeps the first minimum
found: walk the distance list with the current index, best index and best
value, replacing the best only on a strictly smaller value. -/
def scanFirstMinAux : List ℤ → ℕ → ℕ → ℤ → ℕ
  | [], _, bi, _ => bi
  | v :: rest, i, bi, bv =>
      if v < bv then scanFirstMinAux rest (i + 1) i v
      else scanFirstMinAux rest (i + 1) bi bv

/-- Sequential first-minimum scan over a distance list: the spec's reference
formulation of the quantizer tie-break ("scanning in order and keeping the
first minimum found"). -/
def scanFirstMin : List ℤ → ℕ
  | [] => 0
  | d :: ds => scanFirstMinAux ds 1 0 d

/-- The quantized index grid `mapped_idxs` as `main` computes it: one
`nearest_color` call per pixel, row by row. -/
def quantizeGrid (pixels : List (List Rgb)) (palette : List Rgb) : List (List ℕ) :=
  pixels.map (fun row => row.map (fun p => nearest_color p palette))

/-- The index grid computed instead by the sequential first-minimum scan. -/
def scanQuantizeGrid (pixels : List (List Rgb)) (palette : List Rgb) : List (List ℕ) :=
  pixels.map (fun row => row.map (fun p => scanFirstMin (List.map (sqDist p) palette)))

theorem scanFirstMinAux_spec (rest : List ℤ) :
    ∀ (i bi : ℕ) (bv : ℤ),
      scanFirstMinAux rest i bi bv =
        if rest = [] then bi
        else if bv ≤ listMin rest then bi
        else i + argminFirst rest := by
  induction rest with
  | nil =>
      intro i bi bv
      simp [scanFirstMinAux]
  | cons v rest' ih =>
      intro i bi bv
      show (if v < bv then scanFirstMinAux rest' (i + 1) i v
        else scanFirstMinAux rest' (i + 1) bi bv) = _
      rw [if_neg (List.cons_ne_nil v rest')]
      cases rest' with
      | nil =>
          by_cases hv : v < bv
          · rw [if_pos hv]
            have hnb : ¬ bv ≤ listMin [v] := by
              simp only [listMin]
              omega
            rw [if_neg hnb]
            simp [scanFirstMinAux, argminFirst]
          · rw [if_neg hv]
            have hb : bv ≤ listMin [v] := by
              simp only [listMin]
              omega
            rw [if_pos hb]
            simp [scanFirstMinAux]
      | cons w ws =>
          have hne : (w :: ws) ≠ ([] : List ℤ) := List.cons_ne_nil w ws
          have hm : listMin (v :: w :: ws) = min v (listMin (w :: ws)) := rfl
          by_cases hv : v < bv
          · rw [if_pos hv, ih (i + 1) i v, if_neg hne]
            have hnb : ¬ bv ≤ listMin (v :: w :: ws) := by
              rw [hm]
              have hmv : min v (listMin (w :: ws)) ≤ v := min_le_left _ _
              omega
            rw [if_neg hnb]
            by_cases hvm : v ≤ listMin (w :: ws)
            · rw [if_pos hvm]
              have ha0 : argminFirst (v :: w :: ws) = 0 := by
                simp [argminFirst, hvm]
              rw [ha0]
              omega
            · rw [if_neg hvm]
              have ha1 : argminFirst (v :: w :: ws) = argminFirst (w :: ws) + 1 := by
                simp [argminFirst, hvm]
              rw [ha1]
              omega
          · rw [if_neg hv, ih (i + 1) bi bv, if_neg hne]
            by_cases hbm : bv ≤ listMin (w :: ws)
            · rw [if_pos hbm]
              have hble : bv ≤ listMin (v :: w :: ws) := by
                rw [hm]
                exact le_min (by omega) hbm
              rw [if_pos hble]
            · rw [if_neg hbm]
              have hnble : ¬ bv ≤ listMin (v :: w :: ws) := by
                rw [hm]
                intro hcon
                exact hbm (le_trans hcon (min_le_right _ _))
              rw [if_neg hnble]
              have hnvm : ¬ v ≤ listMin (w :: ws) := by
                omega
              have ha1 : argminFirst (v :: w :: ws) = argminFirst (w :: ws) + 1 := by
                simp [argminFirst, hnvm]
              rw [ha1]
              omega

theorem scanFirstMin_eq_argminFirst (l : List ℤ) : scanFirstMin l = argminFirst l := by
  cases l with
  | nil => rfl
  | cons d ds =>
      show scanFirstMinAux ds 1 0 d = argminFirst (d :: ds)
      rw [scanFirstMinAux_spec ds 1 0 d]
      cases ds with
      | nil => simp [argminFirst]
      | cons e es =>
          rw [if_neg (List.cons_ne_nil e es)]
          by_cases hd : d ≤ listMin (e :: es)
          · rw [if_pos hd]
            simp [argminFirst, hd]
          · rw [if_neg hd]
            simp [argminFirst, hd]
            omega

/-- C9: the quantizer is deterministic — any two computations of the index
grid from the same pixel grid and palette coincide — and each result equals
the sequential scan that keeps the first minimum found, so which equidistant
palette entry wins never varies between runs. -/
theorem quantizer_deterministic_scan (pixels : List (List Rgb)) (palette : List Rgb)
    (g1 g2 : List (List ℕ)) (h1 : g1 = quantizeGrid pixels palette)
    (h2 : g2 = quantizeGrid pixels palette) :
    g1 = g2 ∧ g1 = scanQuantizeGrid pixels palette := by
  subst h1
  subst h2
  refine ⟨rfl, ?_⟩
  rw [quantizeGrid, scanQuantizeGrid]
  refine List.map_congr_left ?_
  intro row _
  refine List.map_congr_left ?_
  intro p _
  rw [nearest_color, scanFirstMin_eq_argminFirst]

/-- C9 witness: a pixel exactly equidistant from the two entries of a
two-entry palette; both computations give the same grid, equal to the scan
result (which picks index 0). -/
theorem quantizer_deterministic_scan_wit :
    quantizeGrid [[(100, 100, 100)]] [(0, 0, 0), (200, 200, 200)] =
      quantizeGrid [[(100, 100, 100)]] [(0, 0, 0), (200, 200, 200)] ∧
    quantizeGrid [[(100, 100, 100)]] [(0, 0, 0), (200, 200, 200)] =
      scanQuantizeGrid [[(100, 100, 100)]] [(0, 0, 0), (200, 200, 200)] :=
  quantizer_deterministic_scan [[(100, 100, 100)]] [(0, 0, 0), (200, 200, 200)]
    (quantizeGrid [[(100, 100, 100)]] [(0, 0, 0), (200, 200, 200)])
    (quantizeGrid [[(100, 100, 100)]] [(0, 0, 0), (200, 200, 200)]) rfl rfl

/-- Preview base image as `main` builds it with `putpixel`: pixel (x, y) is
the palette RGB of the matched entry of grid cell (y, x). -/
def previewBasePixel (mapped : List (List ℕ)) (colors : List Rgb) (x y : ℕ) : Rgb :=
  colors.getD ((mapped.getD y []).getD x 0) (0, 0, 0)

/-- Models the Pillow NEAREST resampler behind `preview.resize((W*8, H*8),
Image.NEAREST)`: output pixel (X, Y) samples the source pixel at the floor
of the center-mapped coordinate (X + 1/2) * srcW / dstW, written in exact
integer arithmetic. For an exact integer upscale factor every
nearest-neighbor convention (corner or center sampling) picks the same
source pixel, X / factor. -/
def resizeNearestPixel (srcW srcH dstW dstH : ℕ) (src : ℕ → ℕ → Rgb) (X Y : ℕ) : Rgb :=
  src ((2 * X + 1) * srcW / (2 * dstW)) ((2 * Y + 1) * srcH / (2 * dstH))

/-- The preview image `main` saves: width W*8, height H*8, and the pixels of
the 8x nearest-neighbor upscale of the per-cell color image. -/
def previewImage (mapped : List (List ℕ)) (colors : List Rgb) :
    ℕ × ℕ × (ℕ → ℕ → Rgb) :=
  (gridW mapped * 8, mapped.length * 8,
    resizeNearestPixel (gridW mapped) mapped.length (gridW mapped * 8)
      (mapped.length * 8) (previewBasePixel mapped colors))

theorem upscale_index (W c dx : ℕ) (hc : c < W) (hdx : dx < 8) :
    (2 * (c * 8 + dx) + 1) * W / (2 * (W * 8)) = c := by
  have hW : 0 < W := by omega
  have h2 : 2 * (W * 8) = 16 * W := by ring
  rw [h2]
  have h3 : (2 * (c * 8 + dx) + 1) * W / (16 * W) = (2 * (c * 8 + dx) + 1) / 16 :=
    Nat.mul_div_mul_right _ _ hW
  rw [h3]
  omega

/-- C8: the preview bitmap has dimensions (W*8, H*8), and every pixel inside
the 8x8 block of cell (r, c) reads back the palette RGB of that cell's
matched entry — the preview is a crisp 8x nearest-neighbor block
replication of the per-cell colors. -/
theorem preview_block_roundtrip (mapped : List (List ℕ)) (colors : List Rgb)
    (r c dx dy : ℕ) (hr : r < mapped.length) (hc : c < gridW mapped)
    (hdx : dx < 8) (hdy : dy < 8) :
    (previewImage mapped colors).1 = gridW mapped * 8 ∧
    (previewImage mapped colors).2.1 = mapped.length * 8 ∧
    (previewImage mapped colors).2.2 (c * 8 + dx) (r * 8 + dy) =
      colors.getD ((mapped.getD r []).getD c 0) (0, 0, 0) := by
  refine ⟨rfl, rfl, ?_⟩
  show previewBasePixel mapped colors
      ((2 * (c * 8 + dx) + 1) * gridW mapped / (2 * (gridW mapped * 8)))
      ((2 * (r * 8 + dy) + 1) * mapped.length / (2 * (mapped.length * 8))) = _
  rw [upscale_index (gridW mapped) c dx hc hdx,
    upscale_index mapped.length r dy hr hdy]
  rfl

/-- C8 witness: a 1x1 grid whose cell is palette index 1, sampled at the far
corner (7, 7) of its 8x8 block. -/
theorem preview_block_roundtrip_wit :
    (0 < ([[1]] : List (List ℕ)).length ∧ 0 < gridW [[1]] ∧ 7 < 8) ∧
    ((previewImage [[1]] (paletteColors CONCRETE_PALETTE)).1 = gridW [[1]] * 8 ∧
    (previewImage [[1]] (paletteColors CONCRETE_PALETTE)).2.1 = ([[1]] : List (List ℕ)).length * 8 ∧
    (previewImage [[1]] (paletteColors CONCRETE_PALETTE)).2.2 (0 * 8 + 7) (0 * 8 + 7) =
      (paletteColors CONCRETE_PALETTE).getD ((([[1]] : List (List ℕ)).getD 0 []).getD 0 0) (0, 0, 0)) :=
  ⟨⟨by decide, by decide, by decide⟩,
    preview_block_roundtrip [[1]] (paletteColors CONCRETE_PALETTE) 0 0 7 7
      (by decide) (by decide) (by decide) (by decide)⟩

/-- Python's `round` applied to the exact quotient: round half to even
(banker's rounding), modelling `int(round((target_w * h0) / w0))` with the
quotient represented exactly as a rational. -/
def pythonRound (q : ℚ) : ℤ :=
  if q - (⌊q⌋ : ℚ) < 1 / 2 then ⌊q⌋
  else if (1 : ℚ) / 2 < q - (⌊q⌋ : ℚ) then ⌊q⌋ + 1
  else if ⌊q⌋ % 2 = 0 then ⌊q⌋ else ⌊q⌋ + 1

/-- `target_h = int(round((target_w * h0) / w0))` from `main`. -/
def targetHeight (w0 h0 target_w : ℤ) : ℤ :=
  pythonRound (((target_w * h0 : ℤ) : ℚ) / ((w0 : ℤ) : ℚ))

/-- Models the dimension validation inside `PIL.Image.resize` — the only
check on the script's resize path, since `main` passes `(target_w, target_h)`
straight to `resize`: the library raises `ValueError: height and width must
be > 0` unless both requested sizes are positive, and on success the
resulting image has exactly the requested size. -/
def resizeChecked (w0 h0 target_w : ℤ) : Except String (ℤ × ℤ) :=
  if target_w ≤ 0 then .error "height and width must be > 0"
  else if targetHeight w0 h0 target_w ≤ 0 then .error "height and width must be > 0"
  else .ok (target_w, targetHeight w0 h0 target_w)

theorem floor_le_pythonRound (q : ℚ) : ⌊q⌋ ≤ pythonRound q := by
  rw [pythonRound]
  split
  · exact le_refl _
  · split
    · omega
    · split <;> omega

/-- C4: for an actual decoded image (positive original dimensions), the
resize step fails with the dimension error exactly when the requested target
width is ≤ 0 or the resize height rounds to 0; with positive width and
nonzero rounded height, no dimension error is raised. -/
theorem invalid_dimension_iff (w0 h0 target_w : ℤ) (hw : 0 < w0) (hh : 0 < h0) :
    (∃ msg, resizeChecked w0 h0 target_w = .error msg) ↔
      (target_w ≤ 0 ∨ targetHeight w0 h0 target_w = 0) := by
  by_cases hwle : target_w ≤ 0
  · constructor
    · intro _
      exact Or.inl hwle
    · intro _
      exact ⟨"height and width must be > 0", by rw [resizeChecked, if_pos hwle]⟩
  · have hwpos : 0 < target_w := by omega
    have hq : 0 ≤ ((target_w * h0 : ℤ) : ℚ) / ((w0 : ℤ) : ℚ) := by
      apply div_nonneg
      · have hnum : (0 : ℤ) ≤ target_w * h0 := le_of_lt (mul_pos hwpos hh)
        exact_mod_cast hnum
      · have hw' : (0 : ℤ) ≤ w0 := le_of_lt hw
        exact_mod_cast hw'
    have hfl : 0 ≤ ⌊((target_w * h0 : ℤ) : ℚ) / ((w0 : ℤ) : ℚ)⌋ :=
      Int.floor_nonneg.mpr hq
    have hth : 0 ≤ targetHeight w0 h0 target_w := by
      rw [targetHeight]
      exact le_trans hfl (floor_le_pythonRound _)
    by_cases hz : targetHeight w0 h0 target_w ≤ 0
    · have hzeq : targetHeight w0 h0 target_w = 0 := le_antisymm hz hth
      constructor
      · intro _
        exact Or.inr hzeq
      · intro _
        exact ⟨"height and width must be > 0",
          by rw [resizeChecked, if_neg hwle, if_pos hz]⟩
    · constructor
      · rintro ⟨msg, hmsg⟩
        rw [resizeChecked, if_neg hwle, if_neg hz] at hmsg
        cases hmsg
      · rintro (hcon | hcon)
        · exact absurd hcon hwle
        · omega

/-- C4 witness: a 4x3 source image with requested width 0 errors, matching
width 0 ≤ 0. -/
theorem invalid_dimension_iff_wit :
    (0 : ℤ) < 4 ∧ (0 : ℤ) < 3 ∧
    ((∃ msg, resizeChecked 4 3 0 = .error msg) ↔
      ((0 : ℤ) ≤ 0 ∨ targetHeight 4 3 0 = 0)) :=
  ⟨by decide, by decide, invalid_dimension_iff 4 3 0 (by decide) (by decide)⟩

/-- C6: whenever the resize succeeds, the normalized pixel grid has width
exactly the requested target width and height equal to
round(target_width * original_height / original_width). -/
theorem resize_dims_spec (w0 h0 target_w : ℤ) (dims : ℤ × ℤ)
    (h : resizeChecked w0 h0 target_w = .ok dims) :
    dims.1 = target_w ∧
    dims.2 = pythonRound ((target_w : ℚ) * (h0 : ℚ) / (w0 : ℚ)) := by
  rw [resizeChecked] at h
  by_cases h1 : target_w ≤ 0
  · rw [if_pos h1] at h
    cases h
  · rw [if_neg h1] at h
    by_cases h2 : targetHeight w0 h0 target_w ≤ 0
    · rw [if_pos h2] at h
      cases h
    · rw [if_neg h2] at h
      cases h
      refine ⟨rfl, ?_⟩
      rw [targetHeight]
      push_cast
      ring

/-- C6 witness: a 2x1 source image resized to target width 64 succeeds with
grid dimensions (64, 32), and 32 = round(64 * 1 / 2). -/
theorem resize_dims_spec_wit :
    resizeChecked 2 1 64 = .ok (64, 32) ∧
    ((64, 32) : ℤ × ℤ).1 = 64 ∧
    ((64, 32) : ℤ × ℤ).2 = pythonRound ((64 : ℚ) * (1 : ℚ) / (2 : ℚ)) := by
  have hth : targetHeight 2 1 64 = 32 := by
    rw [targetHeight, pythonRound]
    norm_num
  have hok : resizeChecked 2 1 64 = .ok (64, 32) := by
    rw [resizeChecked, hth]
    norm_num
  exact ⟨hok, (resize_dims_spec 2 1 64 (64, 32) hok).1,
    (resize_dims_spec 2 1 64 (64, 32) hok).2⟩
